import Mathlib

/-!
Verification of the tafsir processor (`src/tafsir_processor.py`) against its
natural-language specification.

Strings are modelled as `List Char` (`Str`).  The Python behaviours that the
claims depend on are embedded faithfully:

* `re.findall(r"\{(\d+)\}", s)` and `re.sub(r"\{\d+\}", "", s)` are the
  left-to-right, advance-one-on-failure, non-overlapping scan implemented by
  `scanStep` / `findMarkers` / `removeMarkers` (a fuel counter bounded by the
  string length makes the recursion structural, so terms reduce by `decide`).
* `str.strip()` is `pyStrip`; `str.lower()` is `pyLower`; `str.isdigit()` /
  `str.isalpha()` are the ASCII predicates (all inputs in the claims are
  ASCII).
* Python `dict` assignment (insertion order preserved, in-place update on an
  existing key) is `dictInsert`; `dict` lookup is `lookupA`.
* `sorted(..., key=count, reverse=True)` is the stable descending insertion
  sort `sortDesc` (stable sorts are unique, so this is the same function).
* The external collaborators (NLTK tokenizer / stopword corpus, the spaCy
  pipeline, the filesystem writer) are oracle parameters; fallible ones
  return `Except`, mirroring the `try`/`except` placement in the source.
-/

abbrev Str := List Char

/-- Python `str.strip` whitespace class (ASCII part). -/
def pySpace (c : Char) : Bool :=
  c = ' ' || c = '\t' || c = '\n' || c = '\r' || c = '\x0b' || c = '\x0c'

/-- Python `str.strip()`: drop leading and trailing whitespace. -/
def pyStrip (s : Str) : Str :=
  ((s.dropWhile pySpace).reverse.dropWhile pySpace).reverse

/-- Python `str.lower()` (ASCII part). -/
def pyLower (s : Str) : Str := s.map Char.toLower

/-- One attempt of the regex `\{(\d+)\}` at the start of the string: if it
matches, return the digit group and the remainder after the closing brace. -/
def scanStep : Str → Option (Str × Str)
  | [] => none
  | c :: t =>
    if c = '{' then
      match t.dropWhile Char.isDigit with
      | [] => none
      | c2 :: r =>
        if c2 = '}' && !(t.takeWhile Char.isDigit).isEmpty then
          some (t.takeWhile Char.isDigit, r)
        else none
    else none

/-- `re.findall(r"\{(\d+)\}", s)`: scan left to right; on a match, emit the
digits and continue after the match; on failure, advance one character.  The
fuel argument (always at least the string length plus one) only makes the
recursion structural. -/
def fmF : Nat → Str → List Str
  | 0, _ => []
  | _ + 1, [] => []
  | fuel + 1, c :: t =>
    match scanStep (c :: t) with
    | some (ds, r) => ds :: fmF fuel r
    | none => fmF fuel t

/-- The `markers` list of a verse (source line 152). -/
def findMarkers (s : Str) : List Str := fmF (s.length + 1) s

/-- `re.sub(r"\{\d+\}", "", s)`: same scan as `findMarkers`, deleting each
match and keeping every other character. -/
def rmF : Nat → Str → Str
  | 0, _ => []
  | _ + 1, [] => []
  | fuel + 1, c :: t =>
    match scanStep (c :: t) with
    | some (_, r) => rmF fuel r
    | none => c :: rmF fuel t

/-- Marker placeholders removed (source line 154, before `.strip()`). -/
def removeMarkers (s : Str) : Str := rmF (s.length + 1) s

/-- The `clean_text` of a verse (source line 154). -/
def cleanText (s : Str) : Str := pyStrip (removeMarkers s)

/-- Does a brace-delimited integer occur at position `i` of `s`?  If so,
return its digits and the rest of the string after it. -/
def markerAt (s : Str) (i : Nat) : Option (Str × Str) := scanStep (s.drop i)

/-- Formalisation of the spec sentence "`markers` lists exactly the
brace-integers found in `raw_text`, in original order, including duplicates":
the digit groups of all positions of `s` at which a substring of the form
`'{'` digits `'}'` begins, in position order. -/
def specMarkers (s : Str) : List Str :=
  (List.range s.length).filterMap fun i => (markerAt s i).map Prod.fst

/-- Position `j` of `s` lies inside some brace-integer occurrence. -/
def specCovered (s : Str) (j : Nat) : Bool :=
  (List.range (j + 1)).any fun i =>
    match markerAt s i with
    | some (ds, _) => decide (j < i + ds.length + 2)
    | none => false

/-- Formalisation of the spec sentence "Clean text = source text with every
such substring removed": the characters of `s` whose positions are not part
of any brace-integer occurrence. -/
def specRemove (s : Str) : Str :=
  ((List.range s.length).filter fun j => ! specCovered s j).map fun j => s.getD j ' '

/-- There is a substring of the form `'{'` digits `'}'` somewhere in `s`. -/
def hasMarkerSub (s : Str) : Bool :=
  (List.range s.length).any fun i => (markerAt s i).isSome

/-- Python `dict` lookup (`d[k]`, `k in d`): first entry with the given key. -/
def lookupA [DecidableEq κ] : List (κ × α) → κ → Option α
  | [], _ => none
  | (k, v) :: t, x => if k = x then some v else lookupA t x

/-- Python `dict` assignment `d[k] = v`: update the entry in place when the
key is present (insertion order kept), append otherwise. -/
def dictInsert [DecidableEq κ] (d : List (κ × α)) (k : κ) (v : α) : List (κ × α) :=
  if d.any fun p => decide (p.1 = k) then
    d.map fun p => if p.1 = k then (k, v) else p
  else d ++ [(k, v)]

/-- Footnote resolution (source lines 164-166): for each marker in order, if
it is a key of the chapter's footnote mapping, assign that footnote text
under the marker key. -/
def resolveFooters (fm : List (Str × Str)) (ms : List Str) : List (Str × Str) :=
  ms.foldl (fun acc m =>
    match lookupA fm m with
    | some v => dictInsert acc m v
    | none => acc) []

/-- `needle` occurs as a contiguous substring of `hay`. -/
def containsSub (needle hay : Str) : Bool :=
  hay.tails.any fun t => needle.isPrefixOf t

/-- The theme table of `extract_themes` (source lines 256-261); each pattern
is an alternation of plain words, so `re.search` is substring search. -/
def themePatterns : List (Str × List Str) :=
  [("divine mercy".toList, ["mercy".toList, "compassion".toList, "forgiveness".toList]),
   ("prophethood".toList, ["prophet".toList, "messenger".toList, "revelation".toList]),
   ("law".toList, ["law".toList, "commandment".toList, "decree".toList]),
   ("parables".toList, ["parable".toList, "example".toList, "story".toList])]

/-- `extract_themes` (source lines 250-266): emit the label of every category
whose pattern matches somewhere in the lower-cased text, in table order.
(The `except` branch of the source is unreachable: the body is total.) -/
def extract_themes (text : Str) : List Str :=
  let lower := pyLower text
  (themePatterns.filter fun p => p.2.any fun w => containsSub w lower).map Prod.fst

/-- Python `str.isalpha()`: nonempty and all alphabetic. -/
def isalphaStr (s : Str) : Bool := !s.isEmpty && s.all Char.isAlpha

/-- The filter of source line 226: keep alphabetic non-stopword tokens. -/
def qualifying (stop : Str → Bool) (w : Str) : Bool := isalphaStr w && !stop w

/-- One step of the frequency count of source lines 230-231. -/
def bump (d : List (Str × Nat)) (w : Str) : List (Str × Nat) :=
  dictInsert d w (((lookupA d w).getD 0) + 1)

/-- `freq_counts` (source lines 229-231): word counts in first-encounter
order. -/
def freq_counts (ws : List Str) : List (Str × Nat) := ws.foldl bump []

/-- Insert into a list sorted by descending count, after all entries with a
count greater than or equal to the new one. -/
def insertDesc (x : Str × Nat) : List (Str × Nat) → List (Str × Nat)
  | [] => [x]
  | y :: ys => if y.2 < x.2 then x :: y :: ys else y :: insertDesc x ys

/-- `sorted(items, key=count, reverse=True)` (source line 232): the stable
descending sort, realised as a stable insertion sort. -/
def sortDesc (l : List (Str × Nat)) : List (Str × Nat) :=
  l.foldl (fun acc x => insertDesc x acc) []

/-- The words kept from the tokenizer output (source lines 225-226); the
text is lower-cased before tokenization. -/
def wordsOf (stop : Str → Bool) (tokens : List Str) : List Str :=
  tokens.filter (qualifying stop)

/-- `freq_dist` (source lines 227-232): empty when no word qualifies, else
the top 20 of the stable descending sort of the counts. -/
def freqDistOf (ws : List Str) : List (Str × Nat) :=
  if ws.isEmpty then [] else (sortDesc (freq_counts ws)).take 20

/-- `keywords` (source lines 233-235): the keys of `freq_dist`. -/
def keywordsOf (ws : List Str) : List Str :=
  if ws.isEmpty then [] else (freqDistOf ws).map Prod.fst

/-- Values stored in a verse's analysis record. -/
inductive AVal
  | strs (l : List Str)
  | freq (l : List (Str × Nat))
  | ents (l : List (Str × Str))
  | time (t : Str)
deriving DecidableEq, Repr

/-- `advanced_analysis` (source lines 213-248).  The tokenizer oracle stands
for the NLTK stopword-corpus load plus `word_tokenize` (both run before any
result key is set), the `nlp` oracle for the spaCy pass; an exception ends
the `try` block, so the keys assigned before the failing call survive and
the later ones are absent. -/
def advanced_analysis (tokf : Str → Except String (List Str)) (stop : Str → Bool)
    (nlpf : Str → Except String (List (Str × Str) × List Str)) (text : Str) :
    List (String × AVal) :=
  match tokf (pyLower text) with
  | .error _ => []
  | .ok tokens =>
    let ws := wordsOf stop tokens
    let base := [("keywords", AVal.strs (keywordsOf ws)),
                 ("freq_dist", AVal.freq (freqDistOf ws))]
    match nlpf text with
    | .error _ => base
    | .ok (ents, chunks) =>
      base ++ [("named_entities", AVal.ents ents), ("noun_chunks", AVal.strs chunks)]

/-- Tokens of the two header regexes of `parse_sura_info` (source lines
200-206): case-insensitive literals, greedy `\d+`, greedy `\s*` and `\s+`,
the lazy capturing group `(.+?)`, and an optional literal (`:?`). -/
inductive Tok
  | lit (c : Char)
  | digits1
  | space0
  | space1
  | grp
  | optc (c : Char)
deriving DecidableEq, Repr

/-- Case-insensitive character comparison (`re.I`). -/
def lowEq (a b : Char) : Bool := a.toLower = b.toLower

/-- `[n, n-1, ..., 1]`: candidate lengths for a greedy one-or-more item. -/
def countDown : Nat → List Nat
  | 0 => []
  | k + 1 => (k + 1) :: countDown k

/-- First candidate (in order) on which `f` succeeds. -/
def firstSome (l : List Nat) (f : Nat → Option α) : Option α :=
  match l with
  | [] => none
  | a :: t =>
    match f a with
    | some b => some b
    | none => firstSome t f

/-- Backtracking matcher for a token list against the start of a string
(the patterns are `^`-anchored and `re.search` needs no trailing context),
returning the captured groups.  Greedy items try longer candidates first,
the lazy group tries shorter ones first, exactly as Python's engine does.
The fuel (always at least the token count plus one) makes the recursion
structural. -/
def mtF : Nat → List Tok → Str → Option (List Str)
  | 0, _, _ => none
  | _ + 1, [], _ => some []
  | fuel + 1, .lit c :: ts, s =>
    match s with
    | [] => none
    | a :: s2 => if lowEq a c then mtF fuel ts s2 else none
  | fuel + 1, .digits1 :: ts, s =>
    firstSome (countDown (s.takeWhile Char.isDigit).length) fun k => mtF fuel ts (s.drop k)
  | fuel + 1, .space0 :: ts, s =>
    firstSome (countDown (s.takeWhile pySpace).length ++ [0]) fun k => mtF fuel ts (s.drop k)
  | fuel + 1, .space1 :: ts, s =>
    firstSome (countDown (s.takeWhile pySpace).length) fun k => mtF fuel ts (s.drop k)
  | fuel + 1, .grp :: ts, s =>
    firstSome ((List.range (s.takeWhile fun c => c ≠ '\n').length).map (· + 1)) fun k =>
      (mtF fuel ts (s.drop k)).map fun caps => s.take k :: caps
  | fuel + 1, .optc c :: ts, s =>
    match s with
    | [] => mtF fuel ts s
    | a :: s2 =>
      if lowEq a c then
        match mtF fuel ts s2 with
        | some caps => some caps
        | none => mtF fuel ts s
      else mtF fuel ts s

/-- Match a whole token list at the start of `s`. -/
def matchToks (ts : List Tok) (s : Str) : Option (List Str) := mtF (ts.length + 1) ts s

/-- A case-insensitive literal word as tokens. -/
def lits (s : String) : List Tok := s.toList.map Tok.lit

/-- First header template (source line 202). -/
def pat1 : List Tok :=
  [.digits1, .lit '.', .space0, .grp, .space1] ++ lits "Name" ++
  [.space0, .lit '{', .grp, .lit '}', .space1] ++ lits "Theme" ++
  [.space0, .lit '{', .grp, .lit '}']

/-- Second header template (source lines 204-205). -/
def pat2 : List Tok :=
  [.digits1, .lit '.', .space0, .grp, .space1] ++ lits "Name" ++
  [.space0, .lit '{', .grp, .lit '}', .space1] ++ lits "Historical Background" ++
  [.space0, .lit '{', .grp, .lit '}', .space1] ++ lits "Theme" ++
  [.optc ':', .space0, .lit '{', .grp, .lit '}', .space1] ++
  lits "Topics and their Interconnection" ++ [.space0, .lit '{', .grp, .lit '}']

/-- `parse_sura_info` (source lines 193-211): strip the text, try the
templates in order (first match wins), strip each captured group; fall back
to the single `raw` field. -/
def parse_sura_info (text : Str) : List (Str × Str) :=
  let t := pyStrip text
  match matchToks pat1 t with
  | some caps =>
    (["name".toList, "description".toList, "theme".toList]).zip (caps.map pyStrip)
  | none =>
    match matchToks pat2 t with
    | some caps =>
      (["name".toList, "description".toList, "historical_background".toList,
        "theme".toList, "topics_interconnection".toList]).zip (caps.map pyStrip)
    | none => [("raw".toList, t)]

/-- A verse element: `index` and `text` attributes as `attrib.get` returns
them (absent attribute = `none`). -/
structure Aya where
  index : Option Str
  text : Option Str
deriving DecidableEq, Repr

/-- A footnote element. -/
structure Footer where
  index : Option Str
  text : Option Str
deriving DecidableEq, Repr

/-- A chapter element. -/
structure Sura where
  index : Option Str
  ayas : List Aya
  footers : List Footer
deriving DecidableEq, Repr

/-- The footnote mapping of a chapter (source lines 134-139): skip entries
whose index or text is missing or empty (Python truthiness), last write
wins on a duplicate index. -/
def footerMapping (fs : List Footer) : List (Str × Str) :=
  fs.foldl (fun acc f =>
    match f.index, f.text with
    | some fi, some ft =>
      if fi.isEmpty || ft.isEmpty then acc else dictInsert acc fi ft
    | _, _ => acc) []

/-- One emitted verse record (source lines 155-172). -/
structure AyaEntry where
  aya_index : Option Str
  raw_text : Str
  clean_text : Str
  markers : List Str
  footers : List (Str × Str)
  analysis : List (String × AVal)
deriving DecidableEq, Repr

/-- Build one verse record (source lines 151-172): markers, clean text,
resolved footnotes, then the analysis dict extended with the themes and the
timestamp (`ts` stands for `datetime.now().isoformat()`). -/
def processAya (tokf : Str → Except String (List Str)) (stop : Str → Bool)
    (nlpf : Str → Except String (List (Str × Str) × List Str)) (ts : Str)
    (fm : List (Str × Str)) (idx : Option Str) (textA : Str) : AyaEntry :=
  let markers := findMarkers textA
  let clean := cleanText textA
  { aya_index := idx
    raw_text := textA
    clean_text := clean
    markers := markers
    footers := resolveFooters fm markers
    analysis :=
      dictInsert
        (dictInsert (advanced_analysis tokf stop nlpf clean)
          "themes" (AVal.strs (extract_themes clean)))
        "advanced_analysis_timestamp" (AVal.time ts) }

/-- The `sura_index` value placed in the output record (source line 177):
`int(s)` when the index is a truthy all-digit string, otherwise the value
(possibly `None`) unchanged. -/
inductive JVal
  | vInt (n : Nat)
  | vStr (s : Str)
  | vNone
deriving DecidableEq, Repr

/-- Decimal digits of a natural number (Python `str(int)`). -/
def natToStr (n : Nat) : Str := Nat.toDigits 10 n

/-- Python `int(s)` on an all-digit string. -/
def strToNat (s : Str) : Nat := s.foldl (fun acc c => 10 * acc + (c.toNat - '0'.toNat)) 0

/-- Source line 177: `int(sura_index) if sura_index and sura_index.isdigit()
else sura_index`. -/
def suraIndexVal : Option Str → JVal
  | none => .vNone
  | some s => if !s.isEmpty && s.all Char.isDigit then .vInt (strToNat s) else .vStr s

/-- The per-chapter output record (source lines 175-184); `meta_ts` stands
for the processing timestamp. -/
structure SuraOutput where
  qurantafseer : Str
  sura_index : JVal
  sura_info : List (Str × Str)
  ayah : List AyaEntry
  meta_ts : Str
  version : Str
deriving DecidableEq, Repr

/-- One iteration of the verse loop (source lines 142-172), acting on the
pair (current `sura_info`, verse records so far): skip a unit with missing
or empty text, route index `"0"` to the header parser, append a verse
record otherwise. -/
def ayaStep (tokf : Str → Except String (List Str)) (stop : Str → Bool)
    (nlpf : Str → Except String (List (Str × Str) × List Str)) (ts : Str)
    (fm : List (Str × Str)) (st : List (Str × Str) × List AyaEntry) (a : Aya) :
    List (Str × Str) × List AyaEntry :=
  match a.text with
  | none => st
  | some t =>
    if t.isEmpty then st
    else if a.index = some ['0'] then (parse_sura_info t, st.2)
    else (st.1, st.2 ++ [processAya tokf stop nlpf ts fm a.index t])

/-- Assemble one chapter (source lines 128-184). -/
def processSura (tokf : Str → Except String (List Str)) (stop : Str → Bool)
    (nlpf : Str → Except String (List (Str × Str) × List Str))
    (qname ts : Str) (su : Sura) : SuraOutput :=
  let fm := footerMapping su.footers
  let st := su.ayas.foldl (ayaStep tokf stop nlpf ts fm) ([], [])
  { qurantafseer := qname
    sura_index := suraIndexVal su.index
    sura_info := st.1
    ayah := st.2
    meta_ts := ts
    version := "2.0".toList }

/-- Python `str()` of a JSON value, as an f-string renders it. -/
def jvalStr : JVal → Str
  | .vInt n => natToStr n
  | .vStr s => s
  | .vNone => "None".toList

/-- JSON serialization of the `sura_index` value (no escaping needed for
the index strings at hand). -/
def jvalJson : JVal → Str
  | .vInt n => natToStr n
  | .vStr s => '"' :: s ++ ['"']
  | .vNone => "null".toList

/-- Source lines 277-278: `sura_analysis.get("sura_index", "unknown")`
interpolated into `f"sura_{...}.json"`.  The argument is the dict lookup
result; the default fires only when the key is absent. -/
def save_filename_from (v : Option JVal) : Str :=
  "sura_".toList ++ jvalStr (v.getD (.vStr "unknown".toList)) ++ ".json".toList

/-- The file name written for an assembled chapter record: the assembler
(source lines 175-184) always stores the `sura_index` key, so the lookup
always succeeds. -/
def save_filename (o : SuraOutput) : Str := save_filename_from (some o.sura_index)

/-- Whether the write oracle succeeded; `save_sura_analysis` (source lines
271-283) catches any write failure internally and returns normally. -/
def save_sura_run (write : SuraOutput → Except String Unit) (o : SuraOutput) : Bool :=
  match write o with
  | .ok _ => true
  | .error _ => false

/-- The chapter loop of `process_tafsir_file` (source lines 128-191) with
assembly and writing abstracted: an assembly failure propagates out of the
surrounding `try` (which logs and re-raises), while a write failure is
swallowed inside `save_sura_analysis` and the loop continues.  Each
processed chapter is recorded with its write outcome. -/
def processChapters (assemble : Sura → Except String SuraOutput)
    (write : SuraOutput → Except String Unit) :
    List Sura → Except String (List (SuraOutput × Bool))
  | [] => .ok []
  | c :: cs =>
    match assemble c with
    | .error e => .error e
    | .ok o =>
      match processChapters assemble write cs with
      | .error e => .error e
      | .ok rest => .ok ((o, save_sura_run write o) :: rest)

/-- Position of the first occurrence of `x` in a list (the length when
absent). -/
def idxOf [DecidableEq κ] : List κ → κ → Nat
  | [], _ => 0
  | a :: t, x => if a = x then 0 else idxOf t x + 1

/-- Ordering demanded of `freq_dist`: descending count, ties in the order
the keys first appeared in the counting dict `L`. -/
def rankedBefore (L : List (Str × Nat)) (p q : Str × Nat) : Prop :=
  q.2 < p.2 ∨ (p.2 = q.2 ∧ idxOf (L.map Prod.fst) p.1 < idxOf (L.map Prod.fst) q.1)

theorem scanStep_not_brace {c : Char} {t : Str} (h : c ≠ '{') : scanStep (c :: t) = none := by
  simp [scanStep, h]

theorem scanStep_shape {s ds r : Str} (h : scanStep s = some (ds, r)) :
    s = '{' :: ds ++ '}' :: r ∧ ds ≠ [] ∧ ∀ c ∈ ds, c.isDigit = true := by
  cases s with
  | nil => simp [scanStep] at h
  | cons c t =>
    by_cases hc : c = '{'
    · subst hc
      simp only [scanStep, if_pos] at h
      cases hrest : t.dropWhile Char.isDigit with
      | nil => rw [hrest] at h; simp at h
      | cons c2 r2 =>
        rw [hrest] at h
        simp only at h
        split_ifs at h with hcond
        · simp only [Bool.and_eq_true, decide_eq_true_eq, Bool.not_eq_true'] at hcond
          obtain ⟨h1, h2⟩ := hcond
          obtain ⟨hds, hr⟩ : t.takeWhile Char.isDigit = ds ∧ r2 = r := by
            have hinj := Option.some.inj h
            exact ⟨congrArg Prod.fst hinj, congrArg Prod.snd hinj⟩
          subst h1 hr
          refine ⟨?_, ?_, ?_⟩
          · have hsplit := List.takeWhile_append_dropWhile (p := Char.isDigit) (l := t)
            rw [hrest, hds] at hsplit
            rw [← hsplit]
            rfl
          · intro hnil
            rw [hnil] at hds
            rw [hds] at h2
            simp at h2
          · intro x hx
            exact List.mem_takeWhile_imp (hds ▸ hx)
    · rw [scanStep_not_brace hc] at h
      exact absurd h (by simp)

theorem scanStep_length {s ds r : Str} (h : scanStep s = some (ds, r)) :
    s.length = ds.length + r.length + 2 := by
  obtain ⟨hs, -, -⟩ := scanStep_shape h
  subst hs
  simp
  omega

theorem fmF_congr : ∀ (n : Nat) (s : Str) (f g : Nat), s.length ≤ n →
    s.length < f → s.length < g → fmF f s = fmF g s := by
  intro n
  induction n with
  | zero =>
    intro s f g hn hf hg
    have hs : s = [] := List.eq_nil_of_length_eq_zero (Nat.le_zero.mp hn)
    subst hs
    cases f with
    | zero => omega
    | succ f' =>
      cases g with
      | zero => omega
      | succ g' => rfl
  | succ n ih =>
    intro s f g hn hf hg
    cases f with
    | zero => omega
    | succ f' =>
      cases g with
      | zero => omega
      | succ g' =>
        cases s with
        | nil => rfl
        | cons c t =>
          cases h : scanStep (c :: t) with
          | none =>
            simp only [fmF, h]
            exact ih t f' g' (by simp at hn ⊢; omega) (by simp at hf ⊢; omega)
              (by simp at hg ⊢; omega)
          | some p =>
            obtain ⟨ds, r⟩ := p
            have hlen := scanStep_length h
            simp only [List.length_cons] at hlen
            simp only [fmF, h]
            have hr : r.length ≤ n := by simp at hn; omega
            exact congrArg _ (ih r f' g' hr (by simp at hf; omega) (by simp at hg; omega))

theorem findMarkers_none {c : Char} {t : Str} (h : scanStep (c :: t) = none) :
    findMarkers (c :: t) = findMarkers t := by
  show fmF (t.length + 1 + 1) (c :: t) = findMarkers t
  simp only [fmF, h]
  rfl

theorem findMarkers_some {c : Char} {t ds r : Str} (h : scanStep (c :: t) = some (ds, r)) :
    findMarkers (c :: t) = ds :: findMarkers r := by
  show fmF (t.length + 1 + 1) (c :: t) = ds :: findMarkers r
  simp only [fmF, h]
  have hlen := scanStep_length h
  simp only [List.length_cons] at hlen
  exact congrArg _ (fmF_congr r.length r (t.length + 1) (r.length + 1) le_rfl
    (by omega) (by omega))

theorem rmF_congr : ∀ (n : Nat) (s : Str) (f g : Nat), s.length ≤ n →
    s.length < f → s.length < g → rmF f s = rmF g s := by
  intro n
  induction n with
  | zero =>
    intro s f g hn hf hg
    have hs : s = [] := List.eq_nil_of_length_eq_zero (Nat.le_zero.mp hn)
    subst hs
    cases f with
    | zero => omega
    | succ f' =>
      cases g with
      | zero => omega
      | succ g' => rfl
  | succ n ih =>
    intro s f g hn hf hg
    cases f with
    | zero => omega
    | succ f' =>
      cases g with
      | zero => omega
      | succ g' =>
        cases s with
        | nil => rfl
        | cons c t =>
          cases h : scanStep (c :: t) with
          | none =>
            simp only [rmF, h]
            exact congrArg _ (ih t f' g' (by simp at hn ⊢; omega) (by simp at hf ⊢; omega)
              (by simp at hg ⊢; omega))
          | some p =>
            obtain ⟨ds, r⟩ := p
            have hlen := scanStep_length h
            simp only [List.length_cons] at hlen
            simp only [rmF, h]
            have hr : r.length ≤ n := by simp at hn; omega
            exact ih r f' g' hr (by simp at hf; omega) (by simp at hg; omega)

theorem removeMarkers_none {c : Char} {t : Str} (h : scanStep (c :: t) = none) :
    removeMarkers (c :: t) = c :: removeMarkers t := by
  show rmF (t.length + 1 + 1) (c :: t) = c :: removeMarkers t
  simp only [rmF, h]
  rfl

theorem removeMarkers_some {c : Char} {t ds r : Str} (h : scanStep (c :: t) = some (ds, r)) :
    removeMarkers (c :: t) = removeMarkers r := by
  show rmF (t.length + 1 + 1) (c :: t) = removeMarkers r
  simp only [rmF, h]
  have hlen := scanStep_length h
  simp only [List.length_cons] at hlen
  exact rmF_congr r.length r (t.length + 1) (r.length + 1) le_rfl
    (by omega) (by omega)

theorem markerAt_zero (s : Str) : markerAt s 0 = scanStep s := rfl

theorem markerAt_succ_cons (c : Char) (t : Str) (i : Nat) :
    markerAt (c :: t) (i + 1) = markerAt t i := rfl

theorem drop_append_cons_head : ∀ (l : Str) (x : Char) (r : Str) (k : Nat), k ≤ l.length →
    ∃ c t2, (l ++ x :: r).drop k = c :: t2 ∧ (c ∈ l ∨ c = x) := by
  intro l
  induction l with
  | nil =>
    intro x r k hk
    have : k = 0 := Nat.le_zero.mp hk
    subst this
    exact ⟨x, r, rfl, Or.inr rfl⟩
  | cons a l ih =>
    intro x r k hk
    cases k with
    | zero => exact ⟨a, l ++ x :: r, rfl, Or.inl (List.mem_cons_self a l)⟩
    | succ k' =>
      obtain ⟨c, t2, hdrop, hc⟩ := ih x r k' (by simpa using hk)
      exact ⟨c, t2, by simpa using hdrop, hc.imp (List.mem_cons_of_mem a) id⟩

theorem markerAt_inside {ds r : Str} (hds : ∀ c ∈ ds, c.isDigit = true) :
    ∀ k ≤ ds.length, markerAt ('{' :: ds ++ '}' :: r) (k + 1) = none := by
  intro k hk
  rw [List.cons_append, markerAt_succ_cons]
  obtain ⟨c, t2, hdrop, hc⟩ := drop_append_cons_head ds '}' r k hk
  show scanStep ((ds ++ '}' :: r).drop k) = none
  rw [hdrop]
  apply scanStep_not_brace
  rcases hc with hmem | hbrace
  · intro hcontra
    have := hds c hmem
    rw [hcontra] at this
    simp at this
  · rw [hbrace]
    intro hcontra
    simp at hcontra

theorem drop_shape (ds r : Str) :
    ('{' :: ds ++ '}' :: r).drop (ds.length + 2) = r := by
  have : ('{' :: ds ++ '}' :: r) = ('{' :: ds ++ ['}']) ++ r := by simp
  rw [this]
  have hlen : ('{' :: ds ++ ['}']).length = ds.length + 2 := by simp
  rw [← hlen]
  exact List.drop_left _ _

theorem markerAt_shift (ds r : Str) (i : Nat) :
    markerAt ('{' :: ds ++ '}' :: r) (ds.length + 2 + i) = markerAt r i := by
  show scanStep (('{' :: ds ++ '}' :: r).drop (ds.length + 2 + i)) = scanStep (r.drop i)
  rw [← List.drop_drop, drop_shape]

theorem specMarkers_none {c : Char} {t : Str} (h : scanStep (c :: t) = none) :
    specMarkers (c :: t) = specMarkers t := by
  unfold specMarkers
  rw [List.length_cons, List.range_succ_eq_map, List.filterMap_cons, List.filterMap_map]
  have h0 : (markerAt (c :: t) 0).map Prod.fst = none := by
    rw [markerAt_zero, h]
    rfl
  rw [h0]
  apply List.filterMap_congr
  intro i _
  simp only [Function.comp_apply, Nat.succ_eq_add_one, markerAt_succ_cons]

theorem specMarkers_some {s ds r : Str} (h : scanStep s = some (ds, r)) :
    specMarkers s = ds :: specMarkers r := by
  obtain ⟨hs, hne, hdig⟩ := scanStep_shape h
  subst hs
  unfold specMarkers
  have hlen : ('{' :: ds ++ '}' :: r).length = (ds.length + 2) + r.length := by
    simp
    omega
  rw [hlen, List.range_add, List.filterMap_append, List.filterMap_map]
  have hpart1 : (List.range (ds.length + 2)).filterMap
      (fun i => (markerAt ('{' :: ds ++ '}' :: r) i).map Prod.fst) = [ds] := by
    have h2 : ds.length + 2 = (ds.length + 1) + 1 := rfl
    rw [h2, List.range_succ_eq_map, List.filterMap_cons]
    have h0 : (markerAt ('{' :: ds ++ '}' :: r) 0).map Prod.fst = some ds := by
      rw [markerAt_zero, h]
      rfl
    rw [h0, List.filterMap_map]
    have hrest : (List.range (ds.length + 1)).filterMap
        ((fun i => (markerAt ('{' :: ds ++ '}' :: r) i).map Prod.fst) ∘ Nat.succ) = [] := by
      rw [List.filterMap_eq_nil_iff]
      intro k hk
      simp only [Function.comp_apply, Nat.succ_eq_add_one]
      rw [markerAt_inside hdig k (by simpa using Nat.lt_succ_iff.mp (List.mem_range.mp hk))]
      rfl
    rw [hrest]
  have hpart2 : (List.range r.length).filterMap
      ((fun i => (markerAt ('{' :: ds ++ '}' :: r) i).map Prod.fst) ∘ fun x => ds.length + 2 + x) =
      specMarkers r := by
    apply List.filterMap_congr
    intro i _
    simp only [Function.comp_apply, markerAt_shift]
  rw [hpart1, hpart2]
  rfl

theorem findMarkers_eq_specMarkers_aux : ∀ (n : Nat) (s : Str), s.length ≤ n →
    findMarkers s = specMarkers s := by
  intro n
  induction n with
  | zero =>
    intro s hn
    have hs : s = [] := List.eq_nil_of_length_eq_zero (Nat.le_zero.mp hn)
    subst hs
    rfl
  | succ n ih =>
    intro s hn
    cases s with
    | nil => rfl
    | cons c t =>
      cases h : scanStep (c :: t) with
      | none =>
        rw [findMarkers_none h, specMarkers_none h]
        exact ih t (by simp at hn; omega)
      | some p =>
        obtain ⟨ds, r⟩ := p
        have hlen := scanStep_length h
        simp only [List.length_cons] at hlen
        rw [findMarkers_some h, specMarkers_some h]
        exact congrArg _ (ih r (by simp at hn; omega))

/-- The scanner of source line 152 computes exactly the spec's occurrence
list. -/
theorem findMarkers_eq_specMarkers (s : Str) : findMarkers s = specMarkers s :=
  findMarkers_eq_specMarkers_aux s.length s le_rfl

theorem list_any_congr {l : List α} {f g : α → Bool} (h : ∀ a ∈ l, f a = g a) :
    l.any f = l.any g := by
  induction l with
  | nil => rfl
  | cons a t ih =>
    simp only [List.any_cons]
    rw [h a (List.mem_cons_self a t), ih fun x hx => h x (List.mem_cons_of_mem a hx)]

theorem specCovered_cons_zero {c : Char} {t : Str} (h : scanStep (c :: t) = none) :
    specCovered (c :: t) 0 = false := by
  unfold specCovered
  have h1 : List.range 1 = [0] := rfl
  rw [h1]
  simp only [List.any_cons, List.any_nil, markerAt_zero, h, Bool.or_false]

theorem specCovered_cons_succ {c : Char} {t : Str} (h : scanStep (c :: t) = none) (j : Nat) :
    specCovered (c :: t) (j + 1) = specCovered t j := by
  unfold specCovered
  rw [List.range_succ_eq_map, List.any_cons, List.any_map]
  have h0 : (match markerAt (c :: t) 0 with
      | some (ds, _) => decide (j + 1 < 0 + ds.length + 2)
      | none => false) = false := by
    rw [markerAt_zero, h]
  rw [h0, Bool.false_or]
  apply list_any_congr
  intro i _
  simp only [Function.comp_apply, Nat.succ_eq_add_one, markerAt_succ_cons]
  cases markerAt t i with
  | none => rfl
  | some p =>
    obtain ⟨ds, r2⟩ := p
    simp only [decide_eq_decide]
    omega

theorem specCovered_lt {s ds r : Str} (h : scanStep s = some (ds, r)) :
    ∀ j < ds.length + 2, specCovered s j = true := by
  intro j hj
  unfold specCovered
  rw [List.any_eq_true]
  refine ⟨0, List.mem_range.mpr (by omega), ?_⟩
  rw [markerAt_zero, h]
  simp only [decide_eq_true_eq]
  omega

theorem specCovered_shift {s ds r : Str} (h : scanStep s = some (ds, r)) (j : Nat) :
    specCovered s (ds.length + 2 + j) = specCovered r j := by
  obtain ⟨hs, hne, hdig⟩ := scanStep_shape h
  unfold specCovered
  have hsplit : ds.length + 2 + j + 1 = (ds.length + 2) + (j + 1) := by omega
  rw [hsplit, List.range_add, List.any_append]
  have hpart1 : (List.range (ds.length + 2)).any (fun i =>
      match markerAt s i with
      | some (ds2, _) => decide (ds.length + 2 + j < i + ds2.length + 2)
      | none => false) = false := by
    rw [List.any_eq_false]
    intro i hi
    cases i with
    | zero =>
      rw [markerAt_zero, h]
      simp only [decide_eq_true_eq]
      omega
    | succ k =>
      have hk : k ≤ ds.length := by
        have := List.mem_range.mp hi
        omega
      rw [hs, markerAt_inside hdig k hk]
      simp
  rw [hpart1, Bool.false_or, List.any_map]
  apply list_any_congr
  intro i _
  simp only [Function.comp_apply]
  rw [hs, markerAt_shift]
  cases markerAt r i with
  | none => rfl
  | some p =>
    obtain ⟨ds2, r2⟩ := p
    simp only [decide_eq_decide]
    omega

theorem specRemove_none {c : Char} {t : Str} (h : scanStep (c :: t) = none) :
    specRemove (c :: t) = c :: specRemove t := by
  unfold specRemove
  rw [List.length_cons, List.range_succ_eq_map, List.filter_cons]
  rw [specCovered_cons_zero h]
  simp only [Bool.not_false, if_pos]
  rw [List.filter_map, List.map_cons, List.map_map]
  have hgd : (c :: t).getD 0 ' ' = c := rfl
  rw [hgd]
  congr 1
  have hfil : List.filter ((fun j => !specCovered (c :: t) j) ∘ Nat.succ) (List.range t.length) =
      List.filter (fun j => !specCovered t j) (List.range t.length) := by
    apply List.filter_congr
    intro j _
    simp only [Function.comp_apply, Nat.succ_eq_add_one, specCovered_cons_succ h]
  rw [hfil]
  apply List.map_congr_left
  intro j _
  simp only [Function.comp_apply, Nat.succ_eq_add_one, List.getD_cons_succ]

theorem specRemove_some {s ds r : Str} (h : scanStep s = some (ds, r)) :
    specRemove s = specRemove r := by
  obtain ⟨hs, hne, hdig⟩ := scanStep_shape h
  unfold specRemove
  have hlen : s.length = (ds.length + 2) + r.length := by
    rw [scanStep_length h]
    omega
  rw [hlen, List.range_add, List.filter_append]
  have hpart1 : List.filter (fun j => !specCovered s j) (List.range (ds.length + 2)) = [] := by
    rw [List.filter_eq_nil_iff]
    intro j hj
    rw [specCovered_lt h j (List.mem_range.mp hj)]
    simp
  rw [hpart1, List.nil_append, List.filter_map, List.map_map]
  have hfil : List.filter ((fun j => !specCovered s j) ∘ fun x => ds.length + 2 + x)
      (List.range r.length) =
      List.filter (fun j => !specCovered r j) (List.range r.length) := by
    apply List.filter_congr
    intro j _
    simp only [Function.comp_apply, specCovered_shift h]
  rw [hfil]
  apply List.map_congr_left
  intro j _
  simp only [Function.comp_apply]
  have hgd : s.getD (ds.length + 2 + j) ' ' = r.getD j ' ' := by
    have hs2 : s = ('{' :: ds ++ ['}']) ++ r := by
      rw [hs]
      simp
    have hlen2 : ('{' :: ds ++ ['}']).length = ds.length + 2 := by simp
    rw [hs2, List.getD_append_right _ _ _ _ (by rw [hlen2]; omega), hlen2]
    congr 1
    omega
  rw [hgd]

theorem removeMarkers_eq_specRemove_aux : ∀ (n : Nat) (s : Str), s.length ≤ n →
    removeMarkers s = specRemove s := by
  intro n
  induction n with
  | zero =>
    intro s hn
    have hs : s = [] := List.eq_nil_of_length_eq_zero (Nat.le_zero.mp hn)
    subst hs
    rfl
  | succ n ih =>
    intro s hn
    cases s with
    | nil => rfl
    | cons c t =>
      cases h : scanStep (c :: t) with
      | none =>
        rw [removeMarkers_none h, specRemove_none h]
        exact congrArg _ (ih t (by simp at hn; omega))
      | some p =>
        obtain ⟨ds, r⟩ := p
        have hlen := scanStep_length h
        simp only [List.length_cons] at hlen
        rw [removeMarkers_some h, specRemove_some h]
        exact ih r (by simp at hn; omega)

/-- The substitution of source line 154 removes exactly the characters of
the spec's occurrence list. -/
theorem removeMarkers_eq_specRemove (s : Str) : removeMarkers s = specRemove s :=
  removeMarkers_eq_specRemove_aux s.length s le_rfl

/-- C1, counterexample: the claim demands that `clean_text` never contains a
substring of the form `'{'` digits `'}'`, but for the raw text `"{1{2}}"`
the single marker occurrence is `{2}`, and its removal joins `"{1"` with
`"}"`, so the emitted clean text is `"{1}"`, which does contain such a
substring (and the markers list is `["2"]`). -/
theorem c1_claim_false_counterexample :
    cleanText "{1{2}}".toList = "{1}".toList ∧
    hasMarkerSub (cleanText "{1{2}}".toList) = true ∧
    findMarkers "{1{2}}".toList = [['2']] := by
  refine ⟨by decide, by decide, by decide⟩

/-- C1, amended: for every verse text, `markers` is exactly the list of
brace-delimited integers occurring in the raw text, in source order with
duplicates, and `clean_text` is the raw text with every such occurrence
removed and then stripped of surrounding whitespace; the original claim's
further conjunct — that the clean text never contains a brace-integer
substring — is dropped, since removal can juxtapose a `'{'`-plus-digits
prefix with a `'}'` (see the counterexample). -/
theorem c1_markers_and_clean_text (raw : Str) :
    findMarkers raw = specMarkers raw ∧
    removeMarkers raw = specRemove raw ∧
    cleanText raw = pyStrip (specRemove raw) := by
  refine ⟨findMarkers_eq_specMarkers raw, removeMarkers_eq_specRemove raw, ?_⟩
  unfold cleanText
  rw [removeMarkers_eq_specRemove]

theorem lookupA_map_update [DecidableEq κ] {d : List (κ × α)} {k x : κ} {v : α}
    (hx : x ≠ k) :
    lookupA (d.map fun p => if p.1 = k then (k, v) else p) x = lookupA d x := by
  induction d with
  | nil => rfl
  | cons p t ih =>
    obtain ⟨a, b⟩ := p
    by_cases ha : a = k
    · subst ha
      simp only [List.map_cons, if_pos]
      show lookupA ((a, v) :: _) x = _
      simp only [lookupA]
      rw [if_neg (fun hc => hx hc.symm), if_neg (fun hc => hx hc.symm), ih]
    · simp only [List.map_cons]
      have hred : (if (a, b).1 = k then (k, v) else (a, b)) = (a, b) := if_neg ha
      rw [hred]
      simp only [lookupA]
      by_cases hax : a = x
      · rw [if_pos hax, if_pos hax]
      · rw [if_neg hax, if_neg hax, ih]

theorem lookupA_map_update_self [DecidableEq κ] {d : List (κ × α)} {k : κ} {v : α}
    (h : (d.any fun p => decide (p.1 = k)) = true) :
    lookupA (d.map fun p => if p.1 = k then (k, v) else p) k = some v := by
  induction d with
  | nil => simp at h
  | cons p t ih =>
    obtain ⟨a, b⟩ := p
    by_cases ha : a = k
    · subst ha
      simp only [List.map_cons, if_pos]
      show lookupA ((a, v) :: _) a = _
      simp [lookupA]
    · have ht : (t.any fun p => decide (p.1 = k)) = true := by
        simp only [List.any_cons, Bool.or_eq_true_iff, decide_eq_true_eq] at h
        rcases h with h1 | h2
        · exact absurd h1 ha
        · exact h2
      simp only [List.map_cons]
      have hred : (if (a, b).1 = k then (k, v) else (a, b)) = (a, b) := if_neg ha
      rw [hred]
      simp only [lookupA, if_neg ha]
      exact ih ht

theorem lookupA_none_of_any_false [DecidableEq κ] {d : List (κ × α)} {k : κ}
    (h : (d.any fun p => decide (p.1 = k)) = false) : lookupA d k = none := by
  induction d with
  | nil => rfl
  | cons p t ih =>
    obtain ⟨a, b⟩ := p
    simp only [List.any_cons, Bool.or_eq_false_iff] at h
    obtain ⟨h1, h2⟩ := h
    simp only [lookupA, if_neg (of_decide_eq_false h1), ih h2]

theorem lookupA_append [DecidableEq κ] (d e : List (κ × α)) (x : κ) :
    lookupA (d ++ e) x =
      match lookupA d x with
      | some v => some v
      | none => lookupA e x := by
  induction d with
  | nil => rfl
  | cons p t ih =>
    obtain ⟨a, b⟩ := p
    show lookupA ((a, b) :: (t ++ e)) x = _
    simp only [lookupA]
    by_cases hax : a = x
    · rw [if_pos hax, if_pos hax]
    · rw [if_neg hax, if_neg hax, ih]

theorem lookupA_dictInsert [DecidableEq κ] (d : List (κ × α)) (k x : κ) (v : α) :
    lookupA (dictInsert d k v) x = if x = k then some v else lookupA d x := by
  unfold dictInsert
  by_cases hany : (d.any fun p => decide (p.1 = k)) = true
  · rw [if_pos hany]
    by_cases hx : x = k
    · subst hx
      rw [if_pos rfl, lookupA_map_update_self hany]
    · rw [if_neg hx, lookupA_map_update hx]
  · rw [if_neg hany, lookupA_append]
    by_cases hx : x = k
    · subst hx
      rw [lookupA_none_of_any_false (Bool.not_eq_true _ ▸ hany)]
      simp only [lookupA, if_pos rfl, if_pos rfl]
    · by_cases hdx : lookupA d x = none
      · rw [hdx, if_neg hx]
        simp only [lookupA, if_neg (fun hc : k = x => hx hc.symm)]
      · obtain ⟨w, hw⟩ := Option.ne_none_iff_exists.mp hdx
        rw [← hw, if_neg hx]

theorem keys_dictInsert [DecidableEq κ] (d : List (κ × α)) (k : κ) (v : α) :
    (dictInsert d k v).map Prod.fst =
      if d.any fun p => decide (p.1 = k) then d.map Prod.fst
      else d.map Prod.fst ++ [k] := by
  unfold dictInsert
  by_cases hany : (d.any fun p => decide (p.1 = k)) = true
  · rw [if_pos hany, if_pos hany, List.map_map]
    apply List.map_congr_left
    intro p _
    by_cases hp : p.1 = k
    · simp [hp]
    · simp [hp]
  · rw [if_neg hany, if_neg hany]
    simp

theorem nodup_keys_dictInsert [DecidableEq κ] {d : List (κ × α)} (k : κ) (v : α)
    (h : (d.map Prod.fst).Nodup) : ((dictInsert d k v).map Prod.fst).Nodup := by
  rw [keys_dictInsert]
  by_cases hany : (d.any fun p => decide (p.1 = k)) = true
  · rw [if_pos hany]
    exact h
  · rw [if_neg hany]
    have hnotin : k ∉ d.map Prod.fst := by
      intro hmem
      obtain ⟨p, hp, hpk⟩ := List.mem_map.mp hmem
      have : (d.any fun p => decide (p.1 = k)) = true :=
        List.any_eq_true.mpr ⟨p, hp, by simp [hpk]⟩
      exact hany this
    simp only [List.nodup_append, List.nodup_cons, List.nodup_nil]
    refine ⟨h, by simp, ?_⟩
    intro a ha hb
    simp only [List.mem_singleton] at hb
    subst hb
    exact hnotin ha

theorem resolveFooters_lookup_aux (fm : List (Str × Str)) :
    ∀ (ms : List Str) (acc : List (Str × Str)) (m : Str),
    lookupA (ms.foldl (fun acc m =>
      match lookupA fm m with
      | some v => dictInsert acc m v
      | none => acc) acc) m =
    if m ∈ ms ∧ (lookupA fm m).isSome then lookupA fm m else lookupA acc m := by
  intro ms
  induction ms with
  | nil =>
    intro acc m
    simp
  | cons m0 ms ih =>
    intro acc m
    rw [List.foldl_cons, ih]
    by_cases hmem : m ∈ ms ∧ (lookupA fm m).isSome
    · rw [if_pos hmem, if_pos ⟨List.mem_cons_of_mem m0 hmem.1, hmem.2⟩]
    · rw [if_neg hmem]
      by_cases hm0 : m = m0
      · subst hm0
        cases hfm : lookupA fm m with
        | none =>
          rw [if_neg]
          intro hc
          simp at hc
        | some v =>
          rw [lookupA_dictInsert, if_pos rfl, if_pos ⟨List.mem_cons_self m ms, rfl⟩]
      · have hiff : (m ∈ m0 :: ms ∧ (lookupA fm m).isSome) ↔ (m ∈ ms ∧ (lookupA fm m).isSome) := by
          constructor
          · rintro ⟨h1, h2⟩
            rcases List.mem_cons.mp h1 with rfl | hm
            · exact absurd rfl hm0
            · exact ⟨hm, h2⟩
          · rintro ⟨h1, h2⟩
            exact ⟨List.mem_cons_of_mem m0 h1, h2⟩
        rw [if_neg (fun hc => hmem (hiff.mp hc))]
        cases hfm : lookupA fm m0 with
        | none => rfl
        | some v => rw [lookupA_dictInsert, if_neg hm0]

theorem resolveFooters_lookup (fm : List (Str × Str)) (ms : List Str) (m : Str) :
    lookupA (resolveFooters fm ms) m =
    if m ∈ ms ∧ (lookupA fm m).isSome then lookupA fm m else none := by
  unfold resolveFooters
  rw [resolveFooters_lookup_aux]
  rfl

theorem resolveFooters_nodup_aux (fm : List (Str × Str)) :
    ∀ (ms : List Str) (acc : List (Str × Str)), (acc.map Prod.fst).Nodup →
    (((ms.foldl (fun acc m =>
      match lookupA fm m with
      | some v => dictInsert acc m v
      | none => acc) acc)).map Prod.fst).Nodup := by
  intro ms
  induction ms with
  | nil => intro acc h; exact h
  | cons m0 ms ih =>
    intro acc h
    rw [List.foldl_cons]
    apply ih
    cases hfm : lookupA fm m0 with
    | none => exact h
    | some v => exact nodup_keys_dictInsert m0 v h

/-- C2: a verse's `footers` has an entry for `m` exactly when `m` occurs in
its `markers` and is a key of the chapter's footnote mapping; the stored
value is the footnote text, entries are never synthesized for markers
absent from the footnote mapping, and duplicate markers overwrite a single
key (the keys of `footers` are distinct). -/
theorem c2_footers_iff_marker_and_footnote
    (tokf : Str → Except String (List Str)) (stop : Str → Bool)
    (nlpf : Str → Except String (List (Str × Str) × List Str)) (ts : Str)
    (fm : List (Str × Str)) (idx : Option Str) (raw : Str) (m : Str) :
    ((lookupA (processAya tokf stop nlpf ts fm idx raw).footers m).isSome ↔
      (m ∈ (processAya tokf stop nlpf ts fm idx raw).markers ∧ (lookupA fm m).isSome)) ∧
    (∀ v, lookupA (processAya tokf stop nlpf ts fm idx raw).footers m = some v →
      lookupA fm m = some v) ∧
    (((processAya tokf stop nlpf ts fm idx raw).footers.map Prod.fst).Nodup) := by
  refine ⟨?_, ?_, ?_⟩
  · show (lookupA (resolveFooters fm (findMarkers raw)) m).isSome ↔ _
    rw [resolveFooters_lookup]
    by_cases hc : m ∈ findMarkers raw ∧ (lookupA fm m).isSome
    · rw [if_pos hc]
      exact ⟨fun _ => hc, fun _ => hc.2⟩
    · rw [if_neg hc]
      simp only [Option.isSome_none, Bool.false_eq_true, false_iff]
      exact hc
  · intro v hv
    have heq : lookupA (resolveFooters fm (findMarkers raw)) m = some v := hv
    rw [resolveFooters_lookup] at heq
    by_cases hc : m ∈ findMarkers raw ∧ (lookupA fm m).isSome
    · rw [if_pos hc] at heq
      exact heq
    · rw [if_neg hc] at heq
      simp at heq
  · exact resolveFooters_nodup_aux fm (findMarkers raw) [] (by simp)

/-- C2, witness: a concrete verse with markers `{1}{1}{3}` against a
footnote mapping with keys `1` and `2`. -/
theorem c2_footers_iff_marker_and_footnote_witness :
    ((lookupA (processAya (fun _ => .ok []) (fun _ => false) (fun _ => .ok ([], []))
        [] [(['1'], "one".toList), (['2'], "two".toList)] none
        "a {1} b {1} c {3}".toList).footers ['1']).isSome ↔
      (['1'] ∈ (processAya (fun _ => .ok []) (fun _ => false) (fun _ => .ok ([], []))
        [] [(['1'], "one".toList), (['2'], "two".toList)] none
        "a {1} b {1} c {3}".toList).markers ∧
        (lookupA [(['1'], "one".toList), (['2'], "two".toList)] ['1']).isSome)) ∧
    (∀ v, lookupA (processAya (fun _ => .ok []) (fun _ => false) (fun _ => .ok ([], []))
        [] [(['1'], "one".toList), (['2'], "two".toList)] none
        "a {1} b {1} c {3}".toList).footers ['1'] = some v →
      lookupA [(['1'], "one".toList), (['2'], "two".toList)] ['1'] = some v) ∧
    (((processAya (fun _ => .ok []) (fun _ => false) (fun _ => .ok ([], []))
        [] [(['1'], "one".toList), (['2'], "two".toList)] none
        "a {1} b {1} c {3}".toList).footers.map Prod.fst).Nodup) :=
  c2_footers_iff_marker_and_footnote (fun _ => .ok []) (fun _ => false)
    (fun _ => .ok ([], [])) [] [(['1'], "one".toList), (['2'], "two".toList)] none
    "a {1} b {1} c {3}".toList ['1']

/-- C3, counterexample: the claim requires the themes of the verse
`"He is Merciful and a Prophet {1}"` to contain `"divine mercy"`, but the
theme pattern is the alternation `mercy|compassion|forgiveness` and the
lower-cased clean text `"he is merciful and a prophet"` contains none of
those substrings (`"merciful"` does not contain `"mercy"`); only
`"prophethood"` is emitted. -/
theorem c3_divine_mercy_counterexample :
    extract_themes (cleanText "He is Merciful and a Prophet {1}".toList) =
      ["prophethood".toList] ∧
    "divine mercy".toList ∉
      extract_themes (cleanText "He is Merciful and a Prophet {1}".toList) := by
  refine ⟨by decide, by decide⟩

/-- C3, amended: processing the verse text
`"He is Merciful and a Prophet {1}"` in a chapter whose footnote mapping is
`{"1": "commentary"}` yields markers `["1"]`, footers
`{"1": "commentary"}`, and a themes list equal to `["prophethood"]` — in
particular containing `"prophethood"` but not `"divine mercy"`. -/
theorem c3_merciful_prophet_verse
    (tokf : Str → Except String (List Str)) (stop : Str → Bool)
    (nlpf : Str → Except String (List (Str × Str) × List Str)) (ts : Str)
    (idx : Option Str) :
    (processAya tokf stop nlpf ts [(['1'], "commentary".toList)] idx
      "He is Merciful and a Prophet {1}".toList).markers = [['1']] ∧
    (processAya tokf stop nlpf ts [(['1'], "commentary".toList)] idx
      "He is Merciful and a Prophet {1}".toList).footers =
      [(['1'], "commentary".toList)] ∧
    lookupA (processAya tokf stop nlpf ts [(['1'], "commentary".toList)] idx
      "He is Merciful and a Prophet {1}".toList).analysis "themes" =
      some (AVal.strs ["prophethood".toList]) := by
  refine ⟨?_, ?_, ?_⟩
  · show findMarkers "He is Merciful and a Prophet {1}".toList = [['1']]
    decide
  · show resolveFooters [(['1'], "commentary".toList)]
      (findMarkers "He is Merciful and a Prophet {1}".toList) = [(['1'], "commentary".toList)]
    decide
  show lookupA (dictInsert (dictInsert _ "themes" _) "advanced_analysis_timestamp" _)
    "themes" = _
  rw [lookupA_dictInsert, if_neg (by decide), lookupA_dictInsert, if_pos rfl]
  have hth : extract_themes (cleanText "He is Merciful and a Prophet {1}".toList) =
      ["prophethood".toList] := by decide
  rw [hth]

/-- C4: the header `"1. Surah Al Fatihah Name {The Opening} Theme {Divine
Mercy}"` parses to exactly `{name: "Surah Al Fatihah", description: "The
Opening", theme: "Divine Mercy"}`, and every header text (already trimmed,
as §4.5 describes the parser's input) matched by neither template yields
exactly the single-field mapping `{raw: text}` — the parser is total, so no
error is possible. -/
theorem c4_header_parse (t : Str) (htrim : t = pyStrip t)
    (h1 : matchToks pat1 t = none) (h2 : matchToks pat2 t = none) :
    parse_sura_info "1. Surah Al Fatihah Name {The Opening} Theme {Divine Mercy}".toList =
      [("name".toList, "Surah Al Fatihah".toList), ("description".toList, "The Opening".toList),
       ("theme".toList, "Divine Mercy".toList)] ∧
    parse_sura_info t = [("raw".toList, t)] := by
  constructor
  · set_option maxRecDepth 10000 in decide
  · unfold parse_sura_info
    rw [← htrim]
    simp only [h1, h2]

/-- C4, witness: the untemplated header `"random unrelated string"` falls
back to the raw field. -/
theorem c4_header_parse_witness :
    parse_sura_info "1. Surah Al Fatihah Name {The Opening} Theme {Divine Mercy}".toList =
      [("name".toList, "Surah Al Fatihah".toList), ("description".toList, "The Opening".toList),
       ("theme".toList, "Divine Mercy".toList)] ∧
    parse_sura_info "random unrelated string".toList =
      [("raw".toList, "random unrelated string".toList)] :=
  c4_header_parse "random unrelated string".toList (by decide) (by decide) (by decide)

/-- C5, counterexample: for a chapter element with no index attribute the
assembler stores the value `None` under the `sura_index` key (line 177), so
the persister's `dict.get("sura_index", "unknown")` finds the key and the
file is named `sura_None.json` — not `sura_unknown.json` as the claim
states; the `"unknown"` default could fire only if the key were absent,
which the assembler never produces. -/
theorem c5_unknown_counterexample :
    save_filename (processSura (fun _ => .ok []) (fun _ => false) (fun _ => .ok ([], []))
      [] [] ⟨none, [], []⟩) = "sura_None.json".toList ∧
    save_filename (processSura (fun _ => .ok []) (fun _ => false) (fun _ => .ok ([], []))
      [] [] ⟨none, [], []⟩) ≠ "sura_unknown.json".toList := by
  refine ⟨by decide, by decide⟩

/-- C5, amended: for every chapter whose element has no index attribute,
the output file is written under the literal name `sura_None.json` (Python
renders the `None` stored under the always-present `sura_index` key). -/
theorem c5_missing_index_writes_sura_none
    (tokf : Str → Except String (List Str)) (stop : Str → Bool)
    (nlpf : Str → Except String (List (Str × Str) × List Str)) (qn ts : Str)
    (su : Sura) (hidx : su.index = none) :
    save_filename (processSura tokf stop nlpf qn ts su) = "sura_None.json".toList := by
  show save_filename_from (some (suraIndexVal su.index)) = _
  rw [hidx]
  decide

/-- C5, witness: a concrete indexless chapter. -/
theorem c5_missing_index_writes_sura_none_witness :
    save_filename (processSura (fun _ => .ok []) (fun _ => false) (fun _ => .ok ([], []))
      [] [] ⟨none, [⟨some ['1'], some "text {1}".toList⟩], []⟩) = "sura_None.json".toList :=
  c5_missing_index_writes_sura_none (fun _ => .ok []) (fun _ => false)
    (fun _ => .ok ([], [])) [] [] ⟨none, [⟨some ['1'], some "text {1}".toList⟩], []⟩ rfl

/-- C6: an assembly failure on one chapter propagates and aborts the whole
run (chapters after the failing one are never reached), whereas write
failures are swallowed inside the persister: when every chapter assembles,
the run completes over all chapters no matter what the write oracle does,
recording each chapter's write outcome. -/
theorem c6_error_policy_asymmetry :
    (∀ (assemble : Sura → Except String SuraOutput) (write : SuraOutput → Except String Unit)
      (pre : List Sura) (c : Sura) (cs : List Sura) (e : String),
      (∀ p ∈ pre, ∃ o, assemble p = .ok o) → assemble c = .error e →
      processChapters assemble write (pre ++ c :: cs) = .error e) ∧
    (∀ (assemble : Sura → Except String SuraOutput) (write : SuraOutput → Except String Unit)
      (f : Sura → SuraOutput) (cs : List Sura),
      (∀ c ∈ cs, assemble c = .ok (f c)) →
      processChapters assemble write cs =
        .ok (cs.map fun c => (f c, save_sura_run write (f c)))) := by
  constructor
  · intro assemble write pre
    induction pre with
    | nil =>
      intro c cs e _ hc
      simp only [List.nil_append, processChapters, hc]
    | cons p pre ih =>
      intro c cs e hpre hc
      obtain ⟨o, ho⟩ := hpre p (List.mem_cons_self p pre)
      have hrest := ih c cs e (fun q hq => hpre q (List.mem_cons_of_mem p hq)) hc
      simp only [List.cons_append, processChapters, ho]
      rw [List.append_eq, hrest]
  · intro assemble write f cs
    induction cs with
    | nil => intro _; rfl
    | cons c cs ih =>
      intro hok
      have hc := hok c (List.mem_cons_self c cs)
      have hrest := ih fun q hq => hok q (List.mem_cons_of_mem c hq)
      simp only [processChapters, hc, hrest, List.map_cons]

/-- C6, witness: a run whose second chapter fails to assemble aborts with
that error, and a run whose chapters all assemble completes even though
every write fails. -/
theorem c6_error_policy_asymmetry_witness :
    processChapters
      (fun su => match su.index with
        | some ['1'] => .error "boom"
        | _ => .ok ⟨[], .vNone, [], [], [], []⟩)
      (fun _ => .ok ())
      (([] : List Sura) ++ (⟨some ['1'], [], []⟩ : Sura) :: [(⟨some ['3'], [], []⟩ : Sura)]) =
      .error "boom" ∧
    processChapters (fun _ => .ok ⟨[], .vNone, [], [], [], []⟩) (fun _ => .error "disk full")
      [⟨some ['2'], [], []⟩, ⟨some ['3'], [], []⟩] =
      .ok ([(⟨some ['2'], [], []⟩ : Sura), ⟨some ['3'], [], []⟩].map fun _ =>
        ((⟨[], .vNone, [], [], [], []⟩ : SuraOutput), false)) :=
  ⟨c6_error_policy_asymmetry.1
      (fun su => match su.index with
        | some ['1'] => .error "boom"
        | _ => .ok ⟨[], .vNone, [], [], [], []⟩)
      (fun _ => .ok ()) [] ⟨some ['1'], [], []⟩ [⟨some ['3'], [], []⟩] "boom"
      (by simp) (by rfl),
    c6_error_policy_asymmetry.2 (fun _ => .ok ⟨[], .vNone, [], [], [], []⟩)
      (fun _ => .error "disk full") (fun _ => ⟨[], .vNone, [], [], [], []⟩)
      [⟨some ['2'], [], []⟩, ⟨some ['3'], [], []⟩] (fun _ _ => rfl)⟩

theorem mem_insertDesc {x a : Str × Nat} : ∀ {l : List (Str × Nat)},
    a ∈ insertDesc x l → a = x ∨ a ∈ l := by
  intro l
  induction l with
  | nil =>
    intro h
    simp only [insertDesc, List.mem_singleton] at h
    exact Or.inl h
  | cons y ys ih =>
    intro h
    simp only [insertDesc] at h
    split_ifs at h with hy
    · rcases List.mem_cons.mp h with rfl | hm
      · exact Or.inl rfl
      · exact Or.inr hm
    · rcases List.mem_cons.mp h with rfl | hm
      · exact Or.inr (List.mem_cons_self _ _)
      · rcases ih hm with h1 | h2
        · exact Or.inl h1
        · exact Or.inr (List.mem_cons_of_mem _ h2)

theorem mem_foldl_insertDesc {a : Str × Nat} : ∀ (l acc : List (Str × Nat)),
    a ∈ l.foldl (fun acc x => insertDesc x acc) acc → a ∈ acc ∨ a ∈ l := by
  intro l
  induction l with
  | nil =>
    intro acc h
    exact Or.inl h
  | cons x xs ih =>
    intro acc h
    rw [List.foldl_cons] at h
    rcases ih (insertDesc x acc) h with h1 | h2
    · rcases mem_insertDesc h1 with rfl | hm
      · exact Or.inr (List.mem_cons_self _ _)
      · exact Or.inl hm
    · exact Or.inr (List.mem_cons_of_mem _ h2)

theorem mem_sortDesc {a : Str × Nat} {l : List (Str × Nat)} (h : a ∈ sortDesc l) : a ∈ l := by
  rcases mem_foldl_insertDesc l [] h with h1 | h2
  · simp at h1
  · exact h2

theorem keys_foldl_bump_subset : ∀ (ws : List Str) (acc : List (Str × Nat)),
    (ws.foldl bump acc).map Prod.fst ⊆ acc.map Prod.fst ++ ws := by
  intro ws
  induction ws with
  | nil =>
    intro acc x hx
    simpa using hx
  | cons w ws ih =>
    intro acc x hx
    rw [List.foldl_cons] at hx
    have := ih (bump acc w) hx
    rcases List.mem_append.mp this with h1 | h2
    · unfold bump at h1
      rw [keys_dictInsert] at h1
      by_cases hany : (acc.any fun p => decide (p.1 = w)) = true
      · rw [if_pos hany] at h1
        exact List.mem_append.mpr (Or.inl h1)
      · rw [if_neg hany] at h1
        rcases List.mem_append.mp h1 with h3 | h4
        · exact List.mem_append.mpr (Or.inl h3)
        · simp only [List.mem_singleton] at h4
          subst h4
          exact List.mem_append.mpr (Or.inr (List.mem_cons_self _ _))
    · exact List.mem_append.mpr (Or.inr (List.mem_cons_of_mem _ h2))

theorem nodup_keys_foldl_bump : ∀ (ws : List Str) (acc : List (Str × Nat)),
    (acc.map Prod.fst).Nodup → ((ws.foldl bump acc).map Prod.fst).Nodup := by
  intro ws
  induction ws with
  | nil => intro acc h; exact h
  | cons w ws ih =>
    intro acc h
    rw [List.foldl_cons]
    exact ih (bump acc w) (nodup_keys_dictInsert w _ h)

theorem nodup_keys_freq_counts (ws : List Str) : ((freq_counts ws).map Prod.fst).Nodup :=
  nodup_keys_foldl_bump ws [] (by simp)

theorem mem_keys_freq_counts {ws : List Str} {p : Str × Nat} (h : p ∈ freq_counts ws) :
    p.1 ∈ ws := by
  have := keys_foldl_bump_subset ws [] (List.mem_map_of_mem Prod.fst h)
  simpa using this

theorem nodup_idxOf_get [DecidableEq κ] : ∀ (L : List κ), L.Nodup →
    ∀ (i : Fin L.length), idxOf L (L.get i) = i := by
  intro L
  induction L with
  | nil =>
    intro _ i
    exact absurd i.isLt (by simp)
  | cons a t ih =>
    intro hnd i
    obtain ⟨hna, hnt⟩ := List.nodup_cons.mp hnd
    match i with
    | ⟨0, _⟩ => simp [idxOf]
    | ⟨j + 1, hj⟩ =>
      have hget : (a :: t).get ⟨j + 1, hj⟩ = t.get ⟨j, by simpa using hj⟩ := rfl
      rw [hget]
      have hne : a ≠ t.get ⟨j, by simpa using hj⟩ := by
        intro hc
        exact hna (hc ▸ List.get_mem t j _)
      show (if a = t.get ⟨j, by simpa using hj⟩ then 0 else idxOf t (t.get ⟨j, _⟩) + 1) = j + 1
      rw [if_neg hne, ih hnt ⟨j, by simpa using hj⟩]

theorem pairwise_idxOf_lt {l : List (Str × Nat)} (h : (l.map Prod.fst).Nodup) :
    l.Pairwise fun p q => idxOf (l.map Prod.fst) p.1 < idxOf (l.map Prod.fst) q.1 := by
  rw [List.pairwise_iff_get]
  intro i j hij
  have hi : idxOf (l.map Prod.fst) (l.get i).1 = (i : Nat) := by
    have hgm : (l.get i).1 = (l.map Prod.fst).get ⟨i, by simp⟩ := by
      simp
    rw [hgm, nodup_idxOf_get _ h]
  have hj : idxOf (l.map Prod.fst) (l.get j).1 = (j : Nat) := by
    have hgm : (l.get j).1 = (l.map Prod.fst).get ⟨j, by simp⟩ := by
      simp
    rw [hgm, nodup_idxOf_get _ h]
  rw [hi, hj]
  exact hij

theorem rankedBefore_snd_le {L : List (Str × Nat)} {p q : Str × Nat}
    (h : rankedBefore L p q) : q.2 ≤ p.2 := by
  rcases h with h1 | ⟨h2, _⟩
  · omega
  · omega

theorem insertDesc_pairwise {L : List (Str × Nat)} {x : Str × Nat} :
    ∀ {acc : List (Str × Nat)}, acc.Pairwise (rankedBefore L) →
    (∀ y ∈ acc, idxOf (L.map Prod.fst) y.1 < idxOf (L.map Prod.fst) x.1) →
    (insertDesc x acc).Pairwise (rankedBefore L) := by
  intro acc
  induction acc with
  | nil =>
    intro _ _
    simp [insertDesc]
  | cons y ys ih =>
    intro hpw hidx
    obtain ⟨hy, hys⟩ := List.pairwise_cons.mp hpw
    simp only [insertDesc]
    split_ifs with hlt
    · refine List.pairwise_cons.mpr ⟨?_, hpw⟩
      intro z hz
      rcases List.mem_cons.mp hz with rfl | hzm
      · exact Or.inl hlt
      · have := rankedBefore_snd_le (hy z hzm)
        exact Or.inl (by omega)
    · refine List.pairwise_cons.mpr ⟨?_, ?_⟩
      · intro z hz
        rcases mem_insertDesc hz with rfl | hzm
        · by_cases heq : z.2 = y.2
          · exact Or.inr ⟨heq.symm, hidx y (List.mem_cons_self y ys)⟩
          · exact Or.inl (by omega)
        · exact hy z hzm
      · exact ih hys fun z hz => hidx z (List.mem_cons_of_mem y hz)

theorem foldl_insertDesc_pairwise {L : List (Str × Nat)} :
    ∀ (l acc : List (Str × Nat)), acc.Pairwise (rankedBefore L) →
    (∀ x ∈ l, ∀ y ∈ acc, idxOf (L.map Prod.fst) y.1 < idxOf (L.map Prod.fst) x.1) →
    l.Pairwise (fun p q => idxOf (L.map Prod.fst) p.1 < idxOf (L.map Prod.fst) q.1) →
    (l.foldl (fun acc x => insertDesc x acc) acc).Pairwise (rankedBefore L) := by
  intro l
  induction l with
  | nil =>
    intro acc h _ _
    exact h
  | cons x xs ih =>
    intro acc hacc hcross hl
    obtain ⟨hx, hxs⟩ := List.pairwise_cons.mp hl
    rw [List.foldl_cons]
    apply ih
    · exact insertDesc_pairwise hacc fun y hy => hcross x (List.mem_cons_self x xs) y hy
    · intro z hz y hy
      rcases mem_insertDesc hy with rfl | hym
      · exact hx z hz
      · exact hcross z (List.mem_cons_of_mem x hz) y hym
    · exact hxs

theorem sortDesc_pairwise (l : List (Str × Nat)) (h : (l.map Prod.fst).Nodup) :
    (sortDesc l).Pairwise (rankedBefore l) := by
  apply foldl_insertDesc_pairwise l [] (by simp) (by simp)
  exact pairwise_idxOf_lt h

/-- C7: whenever the tokenizer runs (the stopword set and tokens being
whatever the external service returns), the analysis record's keyword list
and frequency distribution are as computed by the frequency pass; the
keyword list has at most 20 entries, every keyword is purely alphabetic and
not a stopword, the distribution is sorted by strictly descending count
with ties kept in the first-encounter order of the counting dict, and an
input with no qualifying words gives an empty keyword list and empty
distribution rather than an error. -/
theorem c7_keyword_list_properties
    (tokf : Str → Except String (List Str)) (stop : Str → Bool)
    (nlpf : Str → Except String (List (Str × Str) × List Str)) (text : Str)
    (toks : List Str) (htok : tokf (pyLower text) = .ok toks) :
    lookupA (advanced_analysis tokf stop nlpf text) "keywords" =
      some (.strs (keywordsOf (wordsOf stop toks))) ∧
    lookupA (advanced_analysis tokf stop nlpf text) "freq_dist" =
      some (.freq (freqDistOf (wordsOf stop toks))) ∧
    (keywordsOf (wordsOf stop toks)).length ≤ 20 ∧
    (∀ w ∈ keywordsOf (wordsOf stop toks), isalphaStr w = true ∧ stop w = false) ∧
    (freqDistOf (wordsOf stop toks)).Pairwise
      (rankedBefore (freq_counts (wordsOf stop toks))) ∧
    (wordsOf stop toks = [] → keywordsOf (wordsOf stop toks) = [] ∧
      freqDistOf (wordsOf stop toks) = []) := by
  refine ⟨?_, ?_, ?_, ?_, ?_, ?_⟩
  · unfold advanced_analysis
    rw [htok]
    cases hnl : nlpf text with
    | error e => simp [lookupA]
    | ok p => simp [lookupA]
  · unfold advanced_analysis
    rw [htok]
    cases hnl : nlpf text with
    | error e => simp [lookupA]
    | ok p => simp [lookupA]
  · unfold keywordsOf
    by_cases hws : (wordsOf stop toks).isEmpty
    · rw [if_pos hws]
      simp
    · rw [if_neg hws]
      unfold freqDistOf
      rw [if_neg hws]
      simp only [List.length_map, List.length_take]
      omega
  · intro w hw
    unfold keywordsOf at hw
    by_cases hws : (wordsOf stop toks).isEmpty
    · rw [if_pos hws] at hw
      simp at hw
    · rw [if_neg hws] at hw
      obtain ⟨p, hp, hpw⟩ := List.mem_map.mp hw
      unfold freqDistOf at hp
      rw [if_neg hws] at hp
      have hsort : p ∈ sortDesc (freq_counts (wordsOf stop toks)) :=
        List.take_subset 20 _ hp
      have hmem : p.1 ∈ wordsOf stop toks := mem_keys_freq_counts (mem_sortDesc hsort)
      have hqual : qualifying stop p.1 = true := (List.mem_filter.mp hmem).2
      unfold qualifying at hqual
      rw [Bool.and_eq_true] at hqual
      subst hpw
      exact ⟨hqual.1, by simpa using hqual.2⟩
  · unfold freqDistOf
    by_cases hws : (wordsOf stop toks).isEmpty
    · rw [if_pos hws]
      exact List.Pairwise.nil
    · rw [if_neg hws]
      exact (sortDesc_pairwise _ (nodup_keys_freq_counts _)).sublist (List.take_sublist 20 _)
  · intro hws
    have hempty : (wordsOf stop toks).isEmpty = true := by
      rw [hws]
      rfl
    constructor
    · unfold keywordsOf
      rw [if_pos hempty]
    · unfold freqDistOf
      rw [if_pos hempty]

/-- C7, witness: a concrete tokenizer output with stopwords, a non-alphabetic
token, and a repeated word. -/
theorem c7_keyword_list_properties_witness :
    lookupA (advanced_analysis
        (fun _ => .ok ["the".toList, "law".toList, "of".toList, "law2".toList, "law".toList])
        (fun w => w = "the".toList || w = "of".toList) (fun _ => .ok ([], []))
        "The Law of law2 Law".toList) "keywords" =
      some (.strs (keywordsOf (wordsOf (fun w => w = "the".toList || w = "of".toList)
        ["the".toList, "law".toList, "of".toList, "law2".toList, "law".toList]))) ∧
    lookupA (advanced_analysis
        (fun _ => .ok ["the".toList, "law".toList, "of".toList, "law2".toList, "law".toList])
        (fun w => w = "the".toList || w = "of".toList) (fun _ => .ok ([], []))
        "The Law of law2 Law".toList) "freq_dist" =
      some (.freq (freqDistOf (wordsOf (fun w => w = "the".toList || w = "of".toList)
        ["the".toList, "law".toList, "of".toList, "law2".toList, "law".toList]))) ∧
    (keywordsOf (wordsOf (fun w => w = "the".toList || w = "of".toList)
      ["the".toList, "law".toList, "of".toList, "law2".toList, "law".toList])).length ≤ 20 ∧
    (∀ w ∈ keywordsOf (wordsOf (fun w => w = "the".toList || w = "of".toList)
      ["the".toList, "law".toList, "of".toList, "law2".toList, "law".toList]),
      isalphaStr w = true ∧ (w = "the".toList || w = "of".toList) = false) ∧
    (freqDistOf (wordsOf (fun w => w = "the".toList || w = "of".toList)
      ["the".toList, "law".toList, "of".toList, "law2".toList, "law".toList])).Pairwise
      (rankedBefore (freq_counts (wordsOf (fun w => w = "the".toList || w = "of".toList)
        ["the".toList, "law".toList, "of".toList, "law2".toList, "law".toList]))) ∧
    (wordsOf (fun w => w = "the".toList || w = "of".toList)
        ["the".toList, "law".toList, "of".toList, "law2".toList, "law".toList] = [] →
      keywordsOf (wordsOf (fun w => w = "the".toList || w = "of".toList)
        ["the".toList, "law".toList, "of".toList, "law2".toList, "law".toList]) = [] ∧
      freqDistOf (wordsOf (fun w => w = "the".toList || w = "of".toList)
        ["the".toList, "law".toList, "of".toList, "law2".toList, "law".toList]) = []) :=
  c7_keyword_list_properties
    (fun _ => .ok ["the".toList, "law".toList, "of".toList, "law2".toList, "law".toList])
    (fun w => w = "the".toList || w = "of".toList) (fun _ => .ok ([], []))
    "The Law of law2 Law".toList
    ["the".toList, "law".toList, "of".toList, "law2".toList, "law".toList] rfl

set_option maxRecDepth 4000 in
/-- Which verse units produce records: those with a nonempty text attribute
and an index other than the header sentinel `"0"`. -/
theorem foldl_ayaStep_snd (tokf : Str → Except String (List Str)) (stop : Str → Bool)
    (nlpf : Str → Except String (List (Str × Str) × List Str)) (ts : Str)
    (fm : List (Str × Str)) :
    ∀ (l : List Aya) (st : List (Str × Str) × List AyaEntry),
    (l.foldl (ayaStep tokf stop nlpf ts fm) st).2 =
      st.2 ++ l.filterMap fun a =>
        match a.text with
        | none => none
        | some t =>
          if t.isEmpty then none
          else if a.index = some ['0'] then none
          else some (processAya tokf stop nlpf ts fm a.index t) := by
  intro l
  induction l with
  | nil =>
    intro st
    rw [List.foldl_nil, List.filterMap_nil, List.append_nil]
  | cons a l ih =>
    intro st
    rw [List.foldl_cons, ih, List.filterMap_cons]
    cases hat : a.text with
    | none => simp only [ayaStep, hat]
    | some t =>
      by_cases hte : t.isEmpty
      · simp only [ayaStep, hat, if_pos hte]
      · by_cases hz : a.index = some ['0']
        · simp only [ayaStep, hat, if_neg hte, if_pos hz]
        · simp only [ayaStep, hat, if_neg hte, if_neg hz]
          rw [List.append_assoc]
          rfl

/-- C8: a chapter index that is a nonempty all-digit string is serialized as
the corresponding integer and used numerically in the file name, any other
index string is preserved literally; in particular `"2"` gives `sura_2.json`
with integer `2`, and `"1-3"` gives `sura_1-3.json` with the literal
string. -/
theorem c8_sura_index_serialization
    (tokf : Str → Except String (List Str)) (stop : Str → Bool)
    (nlpf : Str → Except String (List (Str × Str) × List Str)) (qn ts : Str)
    (su : Sura) (s : Str) (hidx : su.index = some s) :
    ((s ≠ [] ∧ s.all Char.isDigit) →
      (processSura tokf stop nlpf qn ts su).sura_index = .vInt (strToNat s) ∧
      save_filename (processSura tokf stop nlpf qn ts su) =
        "sura_".toList ++ natToStr (strToNat s) ++ ".json".toList) ∧
    (¬(s ≠ [] ∧ s.all Char.isDigit) →
      (processSura tokf stop nlpf qn ts su).sura_index = .vStr s ∧
      save_filename (processSura tokf stop nlpf qn ts su) =
        "sura_".toList ++ s ++ ".json".toList) ∧
    (s = "2".toList →
      (processSura tokf stop nlpf qn ts su).sura_index = .vInt 2 ∧
      jvalJson (processSura tokf stop nlpf qn ts su).sura_index = "2".toList ∧
      save_filename (processSura tokf stop nlpf qn ts su) = "sura_2.json".toList) ∧
    (s = "1-3".toList →
      (processSura tokf stop nlpf qn ts su).sura_index = .vStr "1-3".toList ∧
      jvalJson (processSura tokf stop nlpf qn ts su).sura_index =
        '"' :: "1-3".toList ++ ['"'] ∧
      save_filename (processSura tokf stop nlpf qn ts su) = "sura_1-3.json".toList) := by
  have hsi : (processSura tokf stop nlpf qn ts su).sura_index = suraIndexVal (some s) := by
    show suraIndexVal su.index = _
    rw [hidx]
  have hsf : save_filename (processSura tokf stop nlpf qn ts su) =
      save_filename_from (some (suraIndexVal (some s))) := by
    show save_filename_from (some (suraIndexVal su.index)) = _
    rw [hidx]
  refine ⟨?_, ?_, ?_, ?_⟩
  · rintro ⟨h1, h2⟩
    have hcond : (!s.isEmpty && s.all Char.isDigit) = true := by
      simp only [Bool.and_eq_true, Bool.not_eq_true']
      exact ⟨by simpa using h1, h2⟩
    have hval : suraIndexVal (some s) = .vInt (strToNat s) := by
      simp only [suraIndexVal]
      rw [if_pos hcond]
    constructor
    · rw [hsi, hval]
    · rw [hsf, hval]
      rfl
  · intro h
    have hcond : (!s.isEmpty && s.all Char.isDigit) = false := by
      by_contra hc
      apply h
      have := Bool.not_eq_false _ ▸ hc
      simp only [Bool.and_eq_true, Bool.not_eq_true'] at this
      exact ⟨by simpa using this.1, this.2⟩
    have hval : suraIndexVal (some s) = .vStr s := by
      simp only [suraIndexVal]
      rw [if_neg (by rw [hcond]; simp)]
    constructor
    · rw [hsi, hval]
    · rw [hsf, hval]
      rfl
  · rintro rfl
    refine ⟨?_, ?_, ?_⟩
    · rw [hsi]; decide
    · rw [hsi]; decide
    · rw [hsf]; decide
  · rintro rfl
    refine ⟨?_, ?_, ?_⟩
    · rw [hsi]; decide
    · rw [hsi]; decide
    · rw [hsf]; decide

/-- C8, witness: a chapter with index `"2"`. -/
theorem c8_sura_index_serialization_witness :
    (("2".toList ≠ [] ∧ "2".toList.all Char.isDigit) →
      (processSura (fun _ => .ok []) (fun _ => false) (fun _ => .ok ([], [])) [] []
        ⟨some "2".toList, [], []⟩).sura_index = .vInt (strToNat "2".toList) ∧
      save_filename (processSura (fun _ => .ok []) (fun _ => false) (fun _ => .ok ([], [])) [] []
        ⟨some "2".toList, [], []⟩) =
        "sura_".toList ++ natToStr (strToNat "2".toList) ++ ".json".toList) ∧
    (¬("2".toList ≠ [] ∧ "2".toList.all Char.isDigit) →
      (processSura (fun _ => .ok []) (fun _ => false) (fun _ => .ok ([], [])) [] []
        ⟨some "2".toList, [], []⟩).sura_index = .vStr "2".toList ∧
      save_filename (processSura (fun _ => .ok []) (fun _ => false) (fun _ => .ok ([], [])) [] []
        ⟨some "2".toList, [], []⟩) =
        "sura_".toList ++ "2".toList ++ ".json".toList) ∧
    ("2".toList = "2".toList →
      (processSura (fun _ => .ok []) (fun _ => false) (fun _ => .ok ([], [])) [] []
        ⟨some "2".toList, [], []⟩).sura_index = .vInt 2 ∧
      jvalJson (processSura (fun _ => .ok []) (fun _ => false) (fun _ => .ok ([], [])) [] []
        ⟨some "2".toList, [], []⟩).sura_index = "2".toList ∧
      save_filename (processSura (fun _ => .ok []) (fun _ => false) (fun _ => .ok ([], [])) [] []
        ⟨some "2".toList, [], []⟩) = "sura_2.json".toList) ∧
    ("2".toList = "1-3".toList →
      (processSura (fun _ => .ok []) (fun _ => false) (fun _ => .ok ([], [])) [] []
        ⟨some "2".toList, [], []⟩).sura_index = .vStr "1-3".toList ∧
      jvalJson (processSura (fun _ => .ok []) (fun _ => false) (fun _ => .ok ([], [])) [] []
        ⟨some "2".toList, [], []⟩).sura_index = '"' :: "1-3".toList ++ ['"'] ∧
      save_filename (processSura (fun _ => .ok []) (fun _ => false) (fun _ => .ok ([], [])) [] []
        ⟨some "2".toList, [], []⟩) = "sura_1-3.json".toList) :=
  c8_sura_index_serialization (fun _ => .ok []) (fun _ => false) (fun _ => .ok ([], []))
    [] [] ⟨some "2".toList, [], []⟩ "2".toList rfl

/-- C9: when the tokenizer pass succeeds and the spaCy pass fails, the
analysis record consists of exactly the keyword and frequency entries
computed before the failure point (no entity or noun-chunk keys), and the
verse record of any such verse unit is still emitted in its chapter's
output. -/
theorem c9_partial_analysis_survives_nlp_failure
    (tokf : Str → Except String (List Str)) (stop : Str → Bool)
    (nlpf : Str → Except String (List (Str × Str) × List Str)) (qn ts : Str)
    (text : Str) (toks : List Str) (e : String)
    (htok : tokf (pyLower (cleanText text)) = .ok toks)
    (hnlp : nlpf (cleanText text) = .error e)
    (sidx : Option Str) (ayas : List Aya) (fs : List Footer) (a : Aya)
    (ha : a ∈ ayas) (hat : a.text = some text) (hne : text.isEmpty = false)
    (hidx : ¬a.index = some ['0']) :
    advanced_analysis tokf stop nlpf (cleanText text) =
      [("keywords", AVal.strs (keywordsOf (wordsOf stop toks))),
       ("freq_dist", AVal.freq (freqDistOf (wordsOf stop toks)))] ∧
    processAya tokf stop nlpf ts (footerMapping fs) a.index text ∈
      (processSura tokf stop nlpf qn ts ⟨sidx, ayas, fs⟩).ayah := by
  constructor
  · unfold advanced_analysis
    rw [htok, hnlp]
  · show _ ∈ (ayas.foldl (ayaStep tokf stop nlpf ts (footerMapping fs)) ([], [])).2
    rw [foldl_ayaStep_snd]
    rw [List.nil_append]
    apply List.mem_filterMap.mpr
    refine ⟨a, ha, ?_⟩
    rw [hat]
    simp only [hne, Bool.false_eq_true, if_false, if_neg hidx]

/-- C9, witness: a one-verse chapter whose spaCy oracle always fails. -/
theorem c9_partial_analysis_survives_nlp_failure_witness :
    advanced_analysis (fun _ => .ok ["mercy".toList]) (fun _ => false)
      (fun _ => .error "model crash") (cleanText "Mercy {1}".toList) =
      [("keywords", AVal.strs (keywordsOf (wordsOf (fun _ => false) ["mercy".toList]))),
       ("freq_dist", AVal.freq (freqDistOf (wordsOf (fun _ => false) ["mercy".toList])))] ∧
    processAya (fun _ => .ok ["mercy".toList]) (fun _ => false)
      (fun _ => .error "model crash") [] (footerMapping [])
      (some "1-3".toList) "Mercy {1}".toList ∈
      (processSura (fun _ => .ok ["mercy".toList]) (fun _ => false)
        (fun _ => .error "model crash") [] []
        ⟨some ['4'], [⟨some "1-3".toList, some "Mercy {1}".toList⟩], []⟩).ayah :=
  c9_partial_analysis_survives_nlp_failure (fun _ => .ok ["mercy".toList]) (fun _ => false)
    (fun _ => .error "model crash") [] [] "Mercy {1}".toList ["mercy".toList] "model crash"
    rfl rfl (some ['4']) [⟨some "1-3".toList, some "Mercy {1}".toList⟩] []
    ⟨some "1-3".toList, some "Mercy {1}".toList⟩ (List.mem_singleton.mpr rfl) rfl rfl
    (by decide)

theorem ayaStep_skip (tokf : Str → Except String (List Str)) (stop : Str → Bool)
    (nlpf : Str → Except String (List (Str × Str) × List Str)) (ts : Str)
    (fm : List (Str × Str)) (st : List (Str × Str) × List AyaEntry) (a : Aya)
    (ha : a.text = some [] ∨ a.text = none) :
    ayaStep tokf stop nlpf ts fm st a = st := by
  rcases ha with h | h
  · simp only [ayaStep, h]
    simp
  · simp only [ayaStep, h]

theorem footerMapping_skip (fpre fpost : List Footer) (f : Footer)
    (hf : f.index = some [] ∨ f.text = some [] ∨ f.index = none ∨ f.text = none) :
    footerMapping (fpre ++ f :: fpost) = footerMapping (fpre ++ fpost) := by
  unfold footerMapping
  rw [List.foldl_append, List.foldl_append, List.foldl_cons]
  congr 1
  rcases hf with h | h | h | h
  · rw [h]
    cases f.text <;> simp
  · rw [h]
    cases f.index <;> simp
  · rw [h]
  · rw [h]
    cases f.index <;> simp

/-- C10: a verse unit whose text attribute is the empty string is treated
exactly like one lacking the attribute — it yields no verse record and is
not routed to the header parser even when its index is `"0"` — and a
footnote unit whose index or text attribute is empty or missing is excluded
from the chapter's footnote mapping; the chapter output is the same as if
those units were absent. -/
theorem c10_empty_attribute_units_excluded
    (tokf : Str → Except String (List Str)) (stop : Str → Bool)
    (nlpf : Str → Except String (List (Str × Str) × List Str)) (qn ts : Str)
    (sidx : Option Str) (pre post : List Aya) (a : Aya) (ha : a.text = some [])
    (fpre fpost : List Footer) (f : Footer)
    (hf : f.index = some [] ∨ f.text = some [] ∨ f.index = none ∨ f.text = none) :
    processSura tokf stop nlpf qn ts ⟨sidx, pre ++ a :: post, fpre ++ f :: fpost⟩ =
      processSura tokf stop nlpf qn ts
        ⟨sidx, pre ++ (⟨a.index, none⟩ : Aya) :: post, fpre ++ f :: fpost⟩ ∧
    processSura tokf stop nlpf qn ts ⟨sidx, pre ++ a :: post, fpre ++ f :: fpost⟩ =
      processSura tokf stop nlpf qn ts ⟨sidx, pre ++ post, fpre ++ fpost⟩ := by
  have hfold1 : ∀ fm : List (Str × Str),
      (pre ++ a :: post).foldl (ayaStep tokf stop nlpf ts fm) ([], []) =
      (pre ++ (⟨a.index, none⟩ : Aya) :: post).foldl (ayaStep tokf stop nlpf ts fm) ([], []) := by
    intro fm
    rw [List.foldl_append, List.foldl_cons, ayaStep_skip _ _ _ _ _ _ a (Or.inl ha),
      List.foldl_append, List.foldl_cons, ayaStep_skip _ _ _ _ _ _ _ (Or.inr rfl)]
  have hfold2 : ∀ fm : List (Str × Str),
      (pre ++ a :: post).foldl (ayaStep tokf stop nlpf ts fm) ([], []) =
      (pre ++ post).foldl (ayaStep tokf stop nlpf ts fm) ([], []) := by
    intro fm
    rw [List.foldl_append, List.foldl_cons, ayaStep_skip _ _ _ _ _ _ a (Or.inl ha),
      ← List.foldl_append]
  have hfm := footerMapping_skip fpre fpost f hf
  constructor
  · simp only [processSura]
    rw [hfold1]
  · simp only [processSura]
    rw [hfm, hfold2]

/-- C10, witness: an empty-text verse with header index `"0"` and a footnote
with an empty text attribute are both excluded. -/
theorem c10_empty_attribute_units_excluded_witness :
    processSura (fun _ => .ok []) (fun _ => false) (fun _ => .ok ([], [])) [] ['t']
      ⟨some ['7'], [⟨some ['1'], some "x {1}".toList⟩] ++ (⟨some ['0'], some []⟩ : Aya) :: [],
        [⟨some ['1'], some "note".toList⟩] ++ (⟨some ['2'], some []⟩ : Footer) :: []⟩ =
      processSura (fun _ => .ok []) (fun _ => false) (fun _ => .ok ([], [])) [] ['t']
        ⟨some ['7'],
          [⟨some ['1'], some "x {1}".toList⟩] ++ (⟨some ['0'], none⟩ : Aya) :: [],
          [⟨some ['1'], some "note".toList⟩] ++ (⟨some ['2'], some []⟩ : Footer) :: []⟩ ∧
    processSura (fun _ => .ok []) (fun _ => false) (fun _ => .ok ([], [])) [] ['t']
      ⟨some ['7'], [⟨some ['1'], some "x {1}".toList⟩] ++ (⟨some ['0'], some []⟩ : Aya) :: [],
        [⟨some ['1'], some "note".toList⟩] ++ (⟨some ['2'], some []⟩ : Footer) :: []⟩ =
      processSura (fun _ => .ok []) (fun _ => false) (fun _ => .ok ([], [])) [] ['t']
        ⟨some ['7'], [⟨some ['1'], some "x {1}".toList⟩] ++ [],
          [⟨some ['1'], some "note".toList⟩] ++ []⟩ :=
  c10_empty_attribute_units_excluded (fun _ => .ok []) (fun _ => false)
    (fun _ => .ok ([], [])) [] ['t'] (some ['7'])
    [⟨some ['1'], some "x {1}".toList⟩] [] ⟨some ['0'], some []⟩ rfl
    [⟨some ['1'], some "note".toList⟩] [] ⟨some ['2'], some []⟩ (Or.inr (Or.inl rfl))
